import Mathlib

/-!
Verification of the Cramer-rule linear solvers in `project2_AI.c` and
`project2_Human.c`.

The C sources solve `A · X = B` by the Cramer rule: a Gaussian-elimination
determinant engine (`calcDet`), a sequential solver (`linearSolveSeq`) and a
fork-based parallel solver (`linearSolvePar`).  Real (`double`) arithmetic is
embedded as exact rational arithmetic over `ℚ`; machine memory for the matrix
buffers is embedded, where a claim needs it, as an explicit heap of matrices
threaded through the operations.  The parallel solver is embedded from the
parent process: after `fork`, the writes of a child land in its own
copy-on-write address space, so the parent-visible effect of the child body is
no write at all; the value a child computes privately is modelled separately
as `workerX`.
-/

/-- Square `n × n` matrix of rationals (embedding of `double **` of dimension `n`). -/
abbrev Mat (n : ℕ) := Matrix (Fin n) (Fin n) ℚ

/-- The singularity threshold `1e-9` used by `calcDet` in both variants. -/
def thr : ℚ := 1 / 1000000000

namespace AI

/-- Embedding of `swapColumn` (project2_AI.c): column `col` of `M` replaced by `vec`. -/
def replaceColumn {n : ℕ} (M : Mat n) (vec : Fin n → ℚ) (col : Fin n) : Mat n :=
  Matrix.of fun r c => if c = col then vec r else M r c

/-- One pivot step of `calcDet` (project2_AI.c lines 90–95): for every row `j > i`,
subtract `factor * row_i` from `row_j`, with `factor = M j i / M i i`.
Rows `≤ i` are untouched; the factor is read before the row is modified,
exactly as in the C loop. -/
def elimBelow {n : ℕ} (M : Mat n) (i : Fin n) : Mat n :=
  Matrix.of fun j k => if i < j then M j k - M j i / M i i * M i k else M j k

/-- Embedding of the loop of `calcDet` (project2_AI.c lines 83–98), fuelled so that
it is structurally recursive.  State: current matrix and next pivot index `i`.
Returns the final matrix contents (the buffer is mutated in place in C) together
with the returned value: `0` on the early return when `|M i i| < 1e-9`, otherwise
the running product of the pivots. -/
def calcDetGo {n : ℕ} : ℕ → Mat n → ℕ → Mat n × ℚ
  | 0, M, _ => (M, 1)
  | fuel + 1, M, i =>
    if h : i < n then
      if |M ⟨i, h⟩ ⟨i, h⟩| < thr then (M, 0)
      else
        let r := calcDetGo fuel (elimBelow M ⟨i, h⟩) (i + 1)
        (r.1, M ⟨i, h⟩ ⟨i, h⟩ * r.2)
    else (M, 1)

/-- Embedding of `calcDet` (project2_AI.c lines 79–100): the returned value. -/
def calcDet {n : ℕ} (M : Mat n) : ℚ := (calcDetGo n M 0).2

/-- The contents of the matrix buffer when `calcDet` returns (the C function
mutates its argument in place). -/
def elimState {n : ℕ} (M : Mat n) : Mat n := (calcDetGo n M 0).1

/-- `true` iff `calcDet` never takes the early `return 0`: every pivot examined
during the run satisfies `|pivot| ≥ 1e-9`. -/
def pivotsOKgo {n : ℕ} : ℕ → Mat n → ℕ → Bool
  | 0, _, _ => true
  | fuel + 1, M, i =>
    if h : i < n then
      if |M ⟨i, h⟩ ⟨i, h⟩| < thr then false
      else pivotsOKgo fuel (elimBelow M ⟨i, h⟩) (i + 1)
    else true

/-- `true` iff the full run of `calcDet M` never hits a pivot below the threshold. -/
def pivotsOK {n : ℕ} (M : Mat n) : Bool := pivotsOKgo n M 0

/-- The loop of `linearSolveSeq` (project2_AI.c lines 122–131): for each index
`i` in order, clone `A`, overwrite column `i` with `B`, and store
`calcDet(clone) / detA` into `X[i]`. -/
def seqLoop {n : ℕ} (A : Mat n) (B : Fin n → ℚ) (detA : ℚ) :
    List (Fin n) → (Fin n → ℚ) → Fin n → ℚ
  | [], X => X
  | i :: rest, X =>
    seqLoop A B detA rest (Function.update X i (calcDet (replaceColumn A B i) / detA))

/-- Embedding of `linearSolveSeq` (project2_AI.c lines 112–132) acting on the
solution vector `X`: `X` is returned unchanged when `detA == 0`, otherwise every
entry is written by the loop. -/
def linearSolveSeq {n : ℕ} (A : Mat n) (B X : Fin n → ℚ) : Fin n → ℚ :=
  let detA := calcDet A
  if detA = 0 then X
  else seqLoop A B detA (List.finRange n) X

/-- The value a forked child of `linearSolvePar` computes for index `i`
(project2_AI.c lines 157–163) and writes into its own copy-on-write copy of `X`
before calling `exit(0)`. -/
def workerX {n : ℕ} (A : Mat n) (B : Fin n → ℚ) (detA : ℚ) (i : Fin n) : ℚ :=
  calcDet (replaceColumn A B i) / detA

/-- Embedding of `linearSolvePar` (project2_AI.c lines 144–171) as seen by the
parent process: the parent computes `detA`, returns early if it is `0`, and
otherwise forks `n` children and waits.  In the parent, `fork()` returns the
child pid (nonzero), so the `if (fork() == 0)` body is skipped; every write of
`X[i]` happens in the copy-on-write address space of a child and is invisible here,
so the parent-visible `X` is unchanged on both paths. -/
def linearSolvePar {n : ℕ} (A : Mat n) (B X : Fin n → ℚ) : Fin n → ℚ :=
  let detA := calcDet A
  if detA = 0 then X
  else X

/-- The elementary row-operation matrix whose left action performs
`elimBelow M i`: the identity plus the negated elimination factors in column
`i`, rows `> i`.  Used only to prove that the elimination step preserves the
determinant. -/
def elimL {n : ℕ} (M : Mat n) (i : Fin n) : Mat n :=
  1 + Matrix.of fun j k => if i < j ∧ k = i then -(M j i / M i i) else 0

/-- Columns `< i` of `M` are zero below the diagonal: the elimination
invariant after the pivots `< i` have been processed. -/
def lowerZero {n : ℕ} (M : Mat n) (i : ℕ) : Prop :=
  ∀ j k : Fin n, (k : ℕ) < i → (k : ℕ) < (j : ℕ) → M j k = 0

/-! Heap-level embedding.

For the frame claim (the solver never writes into the `A` buffer of the caller,
because it works on freshly `malloc`-ed clones) the matrix buffers are
modelled as a heap: a list of matrices addressed by position.  `makeGrid`
appends a fresh buffer and returns its address; `destroyGrid` is a no-op in
the model (freed buffers are never read again in the C code, so dropping the
frees is sound for frame reasoning about live buffers). -/

/-- The heap of `double **` matrix buffers: address = list position. -/
abbrev Heap (n : ℕ) := List (Mat n)

/-- Embedding of `makeGrid`: allocate a fresh (uninitialised, modelled as zero)
buffer, returning the new heap and the address of that buffer. -/
def makeGrid {n : ℕ} (h : Heap n) : Heap n × ℕ :=
  (h ++ [Matrix.of fun _ _ => 0], h.length)

/-- Read the matrix stored at address `p`. -/
def readGrid {n : ℕ} (h : Heap n) (p : ℕ) : Mat n :=
  h.getD p (Matrix.of fun _ _ => 0)

/-- Overwrite the matrix stored at address `p`. -/
def writeGrid {n : ℕ} (h : Heap n) (p : ℕ) (M : Mat n) : Heap n :=
  h.set p M

/-- Embedding of `cloneGrid(src, dest)`: copy the buffer at `src` over the
buffer at `dst`, element by element. -/
def cloneGrid {n : ℕ} (h : Heap n) (src dst : ℕ) : Heap n :=
  writeGrid h dst (readGrid h src)

/-- Embedding of `swapColumn` acting on the buffer at address `p`. -/
def swapColumnH {n : ℕ} (h : Heap n) (p : ℕ) (vec : Fin n → ℚ) (col : Fin n) : Heap n :=
  writeGrid h p (replaceColumn (readGrid h p) vec col)

/-- Embedding of `calcDet` as the C function behaves in memory: it mutates the
buffer passed to it in place (to its eliminated state) and returns the
determinant value.  No other buffer is touched. -/
def calcDetH {n : ℕ} (h : Heap n) (p : ℕ) : Heap n × ℚ :=
  (writeGrid h p (elimState (readGrid h p)), calcDet (readGrid h p))

/-- The loop of `linearSolveSeq` at heap level: each iteration allocates a
fresh buffer `tmp`, clones `A` into it, swaps column `i` for `B`, runs
`calcDet` on `tmp`, and stores the quotient in `X[i]`. -/
def seqLoopH {n : ℕ} (pA : ℕ) (B : Fin n → ℚ) (detA : ℚ) :
    List (Fin n) → Heap n × (Fin n → ℚ) → Heap n × (Fin n → ℚ)
  | [], hX => hX
  | i :: rest, (h, X) =>
    let al := makeGrid h
    let h2 := cloneGrid al.1 pA al.2
    let h3 := swapColumnH h2 al.2 B i
    let hd := calcDetH h3 al.2
    seqLoopH pA B detA rest (hd.1, Function.update X i (hd.2 / detA))

/-- Heap-level embedding of `linearSolveSeq`: `pA` is the address of the
coefficient matrix `A` of the caller; the constants vector `B` and solution vector
`X` are threaded as values (the function only ever reads `B`). -/
def linearSolveSeqH {n : ℕ} (h : Heap n) (pA : ℕ) (B X : Fin n → ℚ) :
    Heap n × (Fin n → ℚ) :=
  let al := makeGrid h
  let h2 := cloneGrid al.1 pA al.2
  let hd := calcDetH h2 al.2
  if hd.2 = 0 then (hd.1, X)
  else seqLoopH pA B hd.2 (List.finRange n) (hd.1, X)

/-- Heap-level embedding of `linearSolvePar` as seen by the parent process:
the determinant precheck runs on a fresh clone; the fork loop performs no
parent-visible write (children mutate only their own copy-on-write address
spaces), and the parent then waits. -/
def linearSolveParH {n : ℕ} (h : Heap n) (pA : ℕ) (B X : Fin n → ℚ) :
    Heap n × (Fin n → ℚ) :=
  let al := makeGrid h
  let h2 := cloneGrid al.1 pA al.2
  let hd := calcDetH h2 al.2
  if hd.2 = 0 then (hd.1, X)
  else (hd.1, X)

end AI

/-! Process-spawn trace of the parallel solvers.

In both variants `linearSolvePar` runs a fork loop (one child per variable, no
wait inside the loop) followed by a wait loop.  The parent spawn/reap
behaviour is modelled as the event trace below; `peakOutstanding` is the
largest number of spawned-but-not-yet-reaped children along the trace. -/

/-- A parent-side process event: `fork()` of one child, or `wait(NULL)`. -/
inductive ParEvent
  | spawn
  | waitChild
deriving DecidableEq

/-- The parent-side event trace in `linearSolvePar` for dimension `n` (both
variants): `n` forks in the variable loop, then `n` waits. -/
def parentEvents (n : ℕ) : List ParEvent :=
  List.replicate n ParEvent.spawn ++ List.replicate n ParEvent.waitChild

/-- Fold computing the peak number of outstanding children over a trace. -/
def peakGo : List ParEvent → ℕ → ℕ → ℕ
  | [], _, peak => peak
  | ParEvent.spawn :: rest, cur, peak => peakGo rest (cur + 1) (max peak (cur + 1))
  | ParEvent.waitChild :: rest, cur, peak => peakGo rest (cur - 1) peak

/-- Peak number of simultaneously outstanding children along a trace. -/
def peakOutstanding (l : List ParEvent) : ℕ := peakGo l 0 0

namespace Human

/-- `#define LIMIT_PROC 8` (project2_Human.c line 8).  The constant is declared
but never referenced anywhere else in the file. -/
def LIMIT_PROC : ℕ := 8

/-- Embedding of `swapColumn` (project2_Human.c lines 34–38). -/
def replaceColumn {n : ℕ} (M : Mat n) (vec : Fin n → ℚ) (col : Fin n) : Mat n :=
  Matrix.of fun r c => if c = col then vec r else M r c

/-- One pivot step of `calcDet` (project2_Human.c lines 51–56). -/
def elimBelow {n : ℕ} (M : Mat n) (i : Fin n) : Mat n :=
  Matrix.of fun j k => if i < j then M j k - M j i / M i i * M i k else M j k

/-- The loop of `calcDet` (project2_Human.c lines 46–58), fuelled. -/
def calcDetGo {n : ℕ} : ℕ → Mat n → ℕ → Mat n × ℚ
  | 0, M, _ => (M, 1)
  | fuel + 1, M, i =>
    if h : i < n then
      if |M ⟨i, h⟩ ⟨i, h⟩| < thr then (M, 0)
      else
        let r := calcDetGo fuel (elimBelow M ⟨i, h⟩) (i + 1)
        (r.1, M ⟨i, h⟩ ⟨i, h⟩ * r.2)
    else (M, 1)

/-- Embedding of `calcDet` (project2_Human.c lines 42–60): the returned value. -/
def calcDet {n : ℕ} (M : Mat n) : ℚ := (calcDetGo n M 0).2

/-- The buffer contents when `calcDet` of the Human variant returns. -/
def elimState {n : ℕ} (M : Mat n) : Mat n := (calcDetGo n M 0).1

/-- The loop of `linearSolveSeq` (project2_Human.c lines 78–88). -/
def seqLoop {n : ℕ} (A : Mat n) (B : Fin n → ℚ) (detA : ℚ) :
    List (Fin n) → (Fin n → ℚ) → Fin n → ℚ
  | [], X => X
  | i :: rest, X =>
    seqLoop A B detA rest (Function.update X i (calcDet (replaceColumn A B i) / detA))

/-- Embedding of `linearSolveSeq` (project2_Human.c lines 64–89).  On the
singular path the Human variant additionally prints `No unique solution`; the
print has no effect on the computed values. -/
def linearSolveSeq {n : ℕ} (A : Mat n) (B X : Fin n → ℚ) : Fin n → ℚ :=
  let mainDet := calcDet A
  if mainDet = 0 then X
  else seqLoop A B mainDet (List.finRange n) X

/-- Embedding of `linearSolvePar` (project2_Human.c lines 93–128) as seen by
the parent process, exactly as for the AI variant: children write `solVec[var]`
only into their copy-on-write address spaces. -/
def linearSolvePar {n : ℕ} (A : Mat n) (B X : Fin n → ℚ) : Fin n → ℚ :=
  let mainDet := calcDet A
  if mainDet = 0 then X
  else X

end Human

/-! Lemmas about the determinant engine. -/

theorem thr_pos : 0 < thr := by norm_num [thr]

namespace AI

theorem elimBelow_apply {n : ℕ} (M : Mat n) (i j k : Fin n) :
    elimBelow M i j k = if i < j then M j k - M j i / M i i * M i k else M j k := rfl

theorem elimBelow_apply_of_not_lt {n : ℕ} (M : Mat n) {i j : Fin n} (h : ¬i < j) (k : Fin n) :
    elimBelow M i j k = M j k := by
  rw [elimBelow_apply, if_neg h]

theorem elimBelow_row_of_not_lt {n : ℕ} (M : Mat n) {i j : Fin n} (h : ¬i < j) :
    elimBelow M i j = M j :=
  funext fun k => elimBelow_apply_of_not_lt M h k

theorem elimL_blockTriangular {n : ℕ} (M : Mat n) (i : Fin n) :
    (elimL M i).BlockTriangular OrderDual.toDual := by
  intro j k hjk
  have hjk' : j < k := hjk
  have h1 : (1 : Mat n) j k = 0 := Matrix.one_apply_ne hjk'.ne
  have h2 : ¬(i < j ∧ k = i) := by
    rintro ⟨hij, rfl⟩
    exact lt_irrefl _ (hij.trans hjk')
  simp [elimL, h1, h2]

theorem elimL_diag {n : ℕ} (M : Mat n) (i j : Fin n) : elimL M i j j = 1 := by
  have h2 : ¬(i < j ∧ j = i) := by
    rintro ⟨hij, rfl⟩
    exact lt_irrefl _ hij
  simp [elimL, Matrix.one_apply_eq, h2]

theorem det_elimL {n : ℕ} (M : Mat n) (i : Fin n) : (elimL M i).det = 1 := by
  rw [Matrix.det_of_lowerTriangular _ (elimL_blockTriangular M i)]
  exact Finset.prod_eq_one fun j _ => elimL_diag M i j

theorem elimBelow_eq_mul {n : ℕ} (M : Mat n) (i : Fin n) :
    elimBelow M i = elimL M i * M := by
  ext j k
  rw [elimL, Matrix.add_mul, Matrix.one_mul, Matrix.add_apply, Matrix.mul_apply]
  by_cases hij : i < j
  · have hterm : ∀ m : Fin n,
        (Matrix.of fun j k => if i < j ∧ k = i then -(M j i / M i i) else 0) j m * M m k =
          if m = i then -(M j i / M i i) * M m k else 0 := by
      intro m
      by_cases hm : m = i <;> simp [hm, hij]
    rw [Finset.sum_congr rfl fun m _ => hterm m, Finset.sum_ite_eq' Finset.univ i]
    simp only [Finset.mem_univ, if_true, elimBelow_apply, if_pos hij]
    ring
  · have hterm : ∀ m : Fin n,
        (Matrix.of fun j k => if i < j ∧ k = i then -(M j i / M i i) else 0) j m * M m k = 0 := by
      intro m
      simp [hij]
    rw [Finset.sum_congr rfl fun m _ => hterm m]
    simp [elimBelow_apply, hij]

theorem det_elimBelow {n : ℕ} (M : Mat n) (i : Fin n) :
    (elimBelow M i).det = M.det := by
  rw [elimBelow_eq_mul, Matrix.det_mul, det_elimL, one_mul]

theorem pivot_ne_zero {p : ℚ} (hp : ¬|p| < thr) : p ≠ 0 := by
  intro h
  rw [h, abs_zero] at hp
  exact hp thr_pos

theorem calcDetGo_val_of_not_ok {n : ℕ} (fuel : ℕ) :
    ∀ (M : Mat n) (i : ℕ), pivotsOKgo fuel M i = false → (calcDetGo fuel M i).2 = 0 := by
  induction fuel with
  | zero =>
    intro M i h
    simp [pivotsOKgo] at h
  | succ fuel ih =>
    intro M i h
    simp only [pivotsOKgo] at h
    simp only [calcDetGo]
    by_cases hin : i < n
    · rw [dif_pos hin] at h ⊢
      by_cases hp : |M ⟨i, hin⟩ ⟨i, hin⟩| < thr
      · rw [if_pos hp]
      · rw [if_neg hp] at h ⊢
        simp only
        rw [ih _ _ h, mul_zero]
    · rw [dif_neg hin] at h
      simp at h

theorem calcDetGo_val_ne_zero {n : ℕ} (fuel : ℕ) :
    ∀ (M : Mat n) (i : ℕ), pivotsOKgo fuel M i = true → (calcDetGo fuel M i).2 ≠ 0 := by
  induction fuel with
  | zero =>
    intro M i _
    simp [calcDetGo]
  | succ fuel ih =>
    intro M i h
    simp only [pivotsOKgo] at h
    simp only [calcDetGo]
    by_cases hin : i < n
    · rw [dif_pos hin] at h ⊢
      by_cases hp : |M ⟨i, hin⟩ ⟨i, hin⟩| < thr
      · rw [if_pos hp] at h
        exact absurd h (by simp)
      · rw [if_neg hp] at h ⊢
        simp only
        exact mul_ne_zero (pivot_ne_zero hp) (ih _ _ h)
    · rw [dif_neg hin]
      simp

theorem calcDetGo_fst_row {n : ℕ} (fuel : ℕ) :
    ∀ (M : Mat n) (i : ℕ) (j : Fin n), (j : ℕ) < i → (calcDetGo fuel M i).1 j = M j := by
  induction fuel with
  | zero =>
    intro M i j _
    rfl
  | succ fuel ih =>
    intro M i j hj
    simp only [calcDetGo]
    by_cases hin : i < n
    · rw [dif_pos hin]
      by_cases hp : |M ⟨i, hin⟩ ⟨i, hin⟩| < thr
      · rw [if_pos hp]
      · rw [if_neg hp]
        simp only
        rw [ih _ _ j (Nat.lt_succ_of_lt hj)]
        exact elimBelow_row_of_not_lt M (by simpa using Nat.lt_asymm hj)
    · rw [dif_neg hin]

theorem lowerZero_elimBelow {n : ℕ} (M : Mat n) (i : ℕ) (hin : i < n)
    (hlz : lowerZero M i) (hp : M ⟨i, hin⟩ ⟨i, hin⟩ ≠ 0) :
    lowerZero (elimBelow M ⟨i, hin⟩) (i + 1) := by
  intro j k hk hkj
  by_cases hij : (⟨i, hin⟩ : Fin n) < j
  · rw [elimBelow_apply, if_pos hij]
    rcases Nat.lt_succ_iff_lt_or_eq.mp hk with hk' | hk'
    · rw [hlz j k hk' hkj, hlz ⟨i, hin⟩ k hk' hk']
      ring
    · have hki : k = ⟨i, hin⟩ := Fin.ext hk'
      subst hki
      rw [div_mul_cancel₀ _ hp, sub_self]
  · rw [elimBelow_apply, if_neg hij]
    have hji : (j : ℕ) ≤ i := by simpa using hij
    exact hlz j k (lt_of_lt_of_le hkj hji) hkj

theorem det_eq_prod_diag_of_ge {n : ℕ} (M : Mat n) (i : ℕ) (hni : n ≤ i)
    (hlz : lowerZero M i) :
    M.det = ∏ j ∈ Finset.univ.filter fun j : Fin n => (j : ℕ) < i, M j j := by
  have huniv : (Finset.univ.filter fun j : Fin n => (j : ℕ) < i) = Finset.univ := by
    ext j
    have := j.isLt
    simp only [Finset.mem_filter, Finset.mem_univ, true_and, iff_true]
    omega
  have hupper : M.BlockTriangular id := by
    intro j k hkj
    have hk : (k : ℕ) < (j : ℕ) := hkj
    have hkn : (k : ℕ) < n := k.isLt
    exact hlz j k (by omega) hk
  rw [huniv]
  exact Matrix.det_of_upperTriangular hupper

theorem calcDetGo_val_eq_prod {n : ℕ} (fuel : ℕ) :
    ∀ (M : Mat n) (i : ℕ), n ≤ i + fuel → pivotsOKgo fuel M i = true →
      (calcDetGo fuel M i).2 =
        ∏ j ∈ Finset.univ.filter fun j : Fin n => i ≤ (j : ℕ), (calcDetGo fuel M i).1 j j := by
  induction fuel with
  | zero =>
    intro M i hfuel _
    have hempty : (Finset.univ.filter fun j : Fin n => i ≤ (j : ℕ)) = ∅ := by
      ext j
      have := j.isLt
      simp only [Finset.mem_filter, Finset.mem_univ, true_and, Finset.not_mem_empty, iff_false]
      omega
    rw [hempty, Finset.prod_empty]
    rfl
  | succ fuel ih =>
    intro M i hfuel hok
    simp only [pivotsOKgo] at hok
    by_cases hin : i < n
    · rw [dif_pos hin] at hok
      by_cases hp : |M ⟨i, hin⟩ ⟨i, hin⟩| < thr
      · rw [if_pos hp] at hok
        exact absurd hok (by simp)
      · rw [if_neg hp] at hok
        simp only [calcDetGo, dif_pos hin, if_neg hp]
        have hrec := ih (elimBelow M ⟨i, hin⟩) (i + 1) (by omega) hok
        have hii : (calcDetGo fuel (elimBelow M ⟨i, hin⟩) (i + 1)).1 ⟨i, hin⟩ =
            elimBelow M ⟨i, hin⟩ ⟨i, hin⟩ :=
          calcDetGo_fst_row fuel _ (i + 1) ⟨i, hin⟩ (Nat.lt_succ_self i)
        have hMi : elimBelow M ⟨i, hin⟩ ⟨i, hin⟩ ⟨i, hin⟩ = M ⟨i, hin⟩ ⟨i, hin⟩ :=
          elimBelow_apply_of_not_lt M (lt_irrefl _) _
        have hset : (Finset.univ.filter fun j : Fin n => i ≤ (j : ℕ)) =
            insert ⟨i, hin⟩ (Finset.univ.filter fun j : Fin n => i + 1 ≤ (j : ℕ)) := by
          ext j
          simp only [Finset.mem_filter, Finset.mem_univ, true_and, Finset.mem_insert,
            Fin.ext_iff]
          omega
        have hnm : (⟨i, hin⟩ : Fin n) ∉
            Finset.univ.filter fun j : Fin n => i + 1 ≤ (j : ℕ) := by
          simp only [Finset.mem_filter, Finset.mem_univ, true_and]
          omega
        rw [hset, Finset.prod_insert hnm, hii, hMi, ← hrec]
    · rw [dif_neg hin] at hok
      simp only [calcDetGo, dif_neg hin]
      have hempty : (Finset.univ.filter fun j : Fin n => i ≤ (j : ℕ)) = ∅ := by
        ext j
        have := j.isLt
        simp only [Finset.mem_filter, Finset.mem_univ, true_and, Finset.not_mem_empty, iff_false]
        omega
      rw [hempty, Finset.prod_empty]

theorem calcDetGo_val_eq_det {n : ℕ} (fuel : ℕ) :
    ∀ (M : Mat n) (i : ℕ), n ≤ i + fuel → lowerZero M i → pivotsOKgo fuel M i = true →
      (calcDetGo fuel M i).2 * ∏ j ∈ Finset.univ.filter fun j : Fin n => (j : ℕ) < i, M j j
        = M.det := by
  induction fuel with
  | zero =>
    intro M i hfuel hlz _
    have : (calcDetGo (n := n) 0 M i).2 = 1 := rfl
    rw [this, one_mul]
    exact (det_eq_prod_diag_of_ge M i (by omega) hlz).symm
  | succ fuel ih =>
    intro M i hfuel hlz hok
    simp only [pivotsOKgo] at hok
    by_cases hin : i < n
    · rw [dif_pos hin] at hok
      by_cases hp : |M ⟨i, hin⟩ ⟨i, hin⟩| < thr
      · rw [if_pos hp] at hok
        exact absurd hok (by simp)
      · rw [if_neg hp] at hok
        have hpne : M ⟨i, hin⟩ ⟨i, hin⟩ ≠ 0 := pivot_ne_zero hp
        have hlz' := lowerZero_elimBelow M i hin hlz hpne
        have hrec := ih (elimBelow M ⟨i, hin⟩) (i + 1) (by omega) hlz' hok
        have hset : (Finset.univ.filter fun j : Fin n => (j : ℕ) < i + 1) =
            insert ⟨i, hin⟩ (Finset.univ.filter fun j : Fin n => (j : ℕ) < i) := by
          ext j
          simp only [Finset.mem_filter, Finset.mem_univ, true_and, Finset.mem_insert,
            Fin.ext_iff]
          omega
        have hnm : (⟨i, hin⟩ : Fin n) ∉
            Finset.univ.filter fun j : Fin n => (j : ℕ) < i := by
          simp only [Finset.mem_filter, Finset.mem_univ, true_and]
          omega
        have hstable : ∀ j ∈ Finset.univ.filter fun j : Fin n => (j : ℕ) < i,
            elimBelow M ⟨i, hin⟩ j j = M j j := by
          intro j hj
          simp only [Finset.mem_filter, Finset.mem_univ, true_and] at hj
          exact elimBelow_apply_of_not_lt M (by simpa using Nat.lt_asymm hj) j
        have hMi : elimBelow M ⟨i, hin⟩ ⟨i, hin⟩ ⟨i, hin⟩ = M ⟨i, hin⟩ ⟨i, hin⟩ :=
          elimBelow_apply_of_not_lt M (lt_irrefl _) _
        have hprod : ∏ j ∈ Finset.univ.filter fun j : Fin n => (j : ℕ) < i + 1,
              elimBelow M ⟨i, hin⟩ j j
            = M ⟨i, hin⟩ ⟨i, hin⟩ *
              ∏ j ∈ Finset.univ.filter fun j : Fin n => (j : ℕ) < i, M j j := by
          rw [hset, Finset.prod_insert hnm, hMi, Finset.prod_congr rfl hstable]
        simp only [calcDetGo, dif_pos hin, if_neg hp]
        calc (M ⟨i, hin⟩ ⟨i, hin⟩ * (calcDetGo fuel (elimBelow M ⟨i, hin⟩) (i + 1)).2) *
              ∏ j ∈ Finset.univ.filter fun j : Fin n => (j : ℕ) < i, M j j
            = (calcDetGo fuel (elimBelow M ⟨i, hin⟩) (i + 1)).2 *
              (M ⟨i, hin⟩ ⟨i, hin⟩ *
                ∏ j ∈ Finset.univ.filter fun j : Fin n => (j : ℕ) < i, M j j) := by ring
          _ = (calcDetGo fuel (elimBelow M ⟨i, hin⟩) (i + 1)).2 *
              ∏ j ∈ Finset.univ.filter fun j : Fin n => (j : ℕ) < i + 1,
                elimBelow M ⟨i, hin⟩ j j := by rw [hprod]
          _ = (elimBelow M ⟨i, hin⟩).det := hrec
          _ = M.det := det_elimBelow M ⟨i, hin⟩
    · rw [dif_neg hin] at hok
      have : (calcDetGo (n := n) (fuel + 1) M i).2 = 1 := by
        simp only [calcDetGo, dif_neg hin]
      rw [this, one_mul]
      exact (det_eq_prod_diag_of_ge M i (by omega) hlz).symm

theorem lowerZero_zero {n : ℕ} (M : Mat n) : lowerZero M 0 := by
  intro j k hk _
  exact absurd hk (Nat.not_lt_zero _)

theorem calcDet_eq_det {n : ℕ} (M : Mat n) (h : pivotsOK M = true) : calcDet M = M.det := by
  have := calcDetGo_val_eq_det (n := n) n M 0 (by omega) (lowerZero_zero M) h
  have hempty : (Finset.univ.filter fun j : Fin n => (j : ℕ) < 0) = ∅ := by
    ext j
    simp
  rw [hempty, Finset.prod_empty, mul_one] at this
  exact this

theorem calcDet_ne_zero {n : ℕ} (M : Mat n) (h : pivotsOK M = true) : calcDet M ≠ 0 :=
  calcDetGo_val_ne_zero n M 0 h

theorem calcDet_eq_zero_of_not_ok {n : ℕ} (M : Mat n) (h : pivotsOK M = false) :
    calcDet M = 0 :=
  calcDetGo_val_of_not_ok n M 0 h

theorem calcDet_eq_zero_of_det_eq_zero {n : ℕ} (M : Mat n) (h : M.det = 0) :
    calcDet M = 0 := by
  cases hok : pivotsOK M with
  | true => rw [calcDet_eq_det M hok, h]
  | false => exact calcDet_eq_zero_of_not_ok M hok

theorem calcDet_eq_prod_diag {n : ℕ} (M : Mat n) (h : pivotsOK M = true) :
    calcDet M = ∏ j, elimState M j j := by
  have := calcDetGo_val_eq_prod (n := n) n M 0 (by omega) h
  have huniv : (Finset.univ.filter fun j : Fin n => 0 ≤ (j : ℕ)) = Finset.univ := by
    ext j
    simp
  rw [huniv] at this
  exact this

theorem elimBelow_one {n : ℕ} (i : Fin n) : elimBelow (1 : Mat n) i = 1 := by
  ext j k
  rw [elimBelow_apply]
  by_cases hij : i < j
  · have hji : (1 : Mat n) j i = 0 := Matrix.one_apply_ne hij.ne'
    rw [if_pos hij, hji]
    ring
  · rw [if_neg hij]

theorem calcDetGo_one {n : ℕ} (fuel : ℕ) :
    ∀ i : ℕ, calcDetGo (n := n) fuel 1 i = (1, 1) := by
  induction fuel with
  | zero =>
    intro i
    rfl
  | succ fuel ih =>
    intro i
    by_cases hin : i < n
    · have hpiv : (1 : Mat n) ⟨i, hin⟩ ⟨i, hin⟩ = 1 := Matrix.one_apply_eq _
      have hp : ¬|(1 : ℚ)| < thr := by norm_num [thr]
      simp only [calcDetGo, dif_pos hin, hpiv, if_neg hp, elimBelow_one, ih]
      norm_num
    · simp only [calcDetGo, dif_neg hin]

theorem calcDet_one {n : ℕ} : calcDet (1 : Mat n) = 1 := by
  rw [calcDet, calcDetGo_one]

theorem seqLoop_apply {n : ℕ} (A : Mat n) (B : Fin n → ℚ) (d : ℚ) (l : List (Fin n)) :
    ∀ (X : Fin n → ℚ) (j : Fin n),
      seqLoop A B d l X j =
        if j ∈ l then calcDet (replaceColumn A B j) / d else X j := by
  induction l with
  | nil =>
    intro X j
    simp [seqLoop]
  | cons i rest ih =>
    intro X j
    rw [seqLoop, ih]
    by_cases hj : j ∈ rest
    · simp [hj]
    · by_cases hji : j = i
      · subst hji
        simp [hj, Function.update_same]
      · simp [hj, hji, Function.update_noteq hji]

theorem linearSolveSeq_of_ne_zero {n : ℕ} (A : Mat n) (B X : Fin n → ℚ)
    (h : calcDet A ≠ 0) (i : Fin n) :
    linearSolveSeq A B X i = calcDet (replaceColumn A B i) / calcDet A := by
  rw [linearSolveSeq]
  simp only [h, if_false, seqLoop_apply, List.mem_finRange, if_true]

theorem replaceColumn_eq_updateColumn {n : ℕ} (M : Mat n) (v : Fin n → ℚ) (c : Fin n) :
    replaceColumn M v c = M.updateColumn c v := by
  ext r k
  rw [replaceColumn, Matrix.updateColumn_apply]
  rfl

theorem mulVec_linearSolveSeq {n : ℕ} (A : Mat n) (B X : Fin n → ℚ)
    (hA : pivotsOK A = true) (hcols : ∀ i, pivotsOK (replaceColumn A B i) = true) :
    A.mulVec (linearSolveSeq A B X) = B := by
  have hdet : calcDet A = A.det := calcDet_eq_det A hA
  have hne : calcDet A ≠ 0 := calcDet_ne_zero A hA
  have hdetne : A.det ≠ 0 := by
    rw [← hdet]
    exact hne
  have hX : linearSolveSeq A B X = A.det⁻¹ • (Matrix.cramer A B : Fin n → ℚ) := by
    funext i
    rw [linearSolveSeq_of_ne_zero A B X hne i, calcDet_eq_det _ (hcols i),
      replaceColumn_eq_updateColumn, ← Matrix.cramer_apply, hdet]
    simp [div_eq_inv_mul]
  rw [hX, Matrix.mulVec_smul, Matrix.mulVec_cramer, smul_smul, inv_mul_cancel₀ hdetne,
    one_smul]

/-! Lemmas about the heap model. -/

theorem length_writeGrid {n : ℕ} (h : Heap n) (p : ℕ) (M : Mat n) :
    (writeGrid h p M).length = h.length := by
  simp [writeGrid]

theorem readGrid_append_lt {n : ℕ} (h : Heap n) (x : Mat n) (p : ℕ) (hp : p < h.length) :
    readGrid (h ++ [x]) p = readGrid h p := by
  rw [readGrid, readGrid, List.getD_append _ _ _ _ hp]

theorem writeGrid_append_self {n : ℕ} (h : Heap n) (x M : Mat n) :
    writeGrid (h ++ [x]) h.length M = h ++ [M] := by
  rw [writeGrid]
  induction h with
  | nil => rfl
  | cons a t ih => simp [List.set, ih]

theorem readGrid_append_self {n : ℕ} (h : Heap n) (x : Mat n) :
    readGrid (h ++ [x]) h.length = x := by
  rw [readGrid, List.getD_append_right _ _ _ _ (le_refl _)]
  simp

theorem readGrid_writeGrid_ne {n : ℕ} (h : Heap n) (p q : ℕ) (M : Mat n) (hqp : q ≠ p) :
    readGrid (writeGrid h p M) q = readGrid h q := by
  rw [readGrid, readGrid, writeGrid, List.getD_eq_getElem?_getD, List.getD_eq_getElem?_getD,
    List.getElem?_set_ne (Ne.symm hqp)]

theorem seqLoopH_heap_extends {n : ℕ} (pA : ℕ) (B : Fin n → ℚ) (d : ℚ)
    (l : List (Fin n)) :
    ∀ (h : Heap n) (X : Fin n → ℚ), ∃ g : Heap n,
      (seqLoopH pA B d l (h, X)).1 = h ++ g := by
  induction l with
  | nil =>
    intro h X
    exact ⟨[], (List.append_nil h).symm⟩
  | cons i rest ih =>
    intro h X
    simp only [seqLoopH, makeGrid, cloneGrid, swapColumnH, calcDetH, writeGrid_append_self,
      readGrid_append_self]
    obtain ⟨g, hg⟩ := ih (h ++ [elimState (replaceColumn (readGrid (h ++
      [Matrix.of fun _ _ => (0 : ℚ)]) pA) B i)]) (Function.update X i
      (calcDet (replaceColumn (readGrid (h ++ [Matrix.of fun _ _ => (0 : ℚ)]) pA) B i) / d))
    rw [hg, List.append_assoc]
    exact ⟨_, rfl⟩

theorem linearSolveSeqH_frame {n : ℕ} (h : Heap n) (pA : ℕ) (B X : Fin n → ℚ)
    (hp : pA < h.length) :
    readGrid (linearSolveSeqH h pA B X).1 pA = readGrid h pA := by
  have hread : ∀ x : Mat n, readGrid (h ++ [x]) pA = readGrid h pA :=
    fun x => readGrid_append_lt h x pA hp
  rw [linearSolveSeqH]
  simp only [makeGrid, cloneGrid, calcDetH, writeGrid_append_self, readGrid_append_self, hread]
  by_cases hd : calcDet (readGrid h pA) = 0
  · rw [if_pos hd]
    exact hread _
  · rw [if_neg hd]
    obtain ⟨g, hg⟩ := seqLoopH_heap_extends pA B (calcDet (readGrid h pA)) (List.finRange n)
      (h ++ [elimState (readGrid h pA)]) X
    rw [hg, List.append_assoc, readGrid, List.getD_append _ _ _ _ hp]
    rfl

theorem linearSolveParH_frame {n : ℕ} (h : Heap n) (pA : ℕ) (B X : Fin n → ℚ)
    (hp : pA < h.length) :
    readGrid (linearSolveParH h pA B X).1 pA = readGrid h pA := by
  have hread : ∀ x : Mat n, readGrid (h ++ [x]) pA = readGrid h pA :=
    fun x => readGrid_append_lt h x pA hp
  rw [linearSolveParH]
  simp only [makeGrid, cloneGrid, calcDetH, writeGrid_append_self, readGrid_append_self, hread]
  rw [ite_self]
  exact hread _

theorem calcDetH_frame {n : ℕ} (h : Heap n) (p q : ℕ) (hpq : q ≠ p) :
    readGrid (calcDetH h p).1 q = readGrid h q := by
  rw [calcDetH]
  exact readGrid_writeGrid_ne h p q _ hpq

end AI

/-! Lemmas about the spawn trace. -/

theorem peakGo_replicate_waitChild (k : ℕ) :
    ∀ (c p : ℕ), peakGo (List.replicate k ParEvent.waitChild) c p = p := by
  induction k with
  | zero => intro c p; rfl
  | succ k ih =>
    intro c p
    rw [List.replicate_succ]
    exact ih _ _

theorem peakGo_replicate_spawn (k : ℕ) :
    ∀ (rest : List ParEvent) (c p : ℕ), c ≤ p →
      peakGo (List.replicate k ParEvent.spawn ++ rest) c p = peakGo rest (c + k) (max p (c + k)) := by
  induction k with
  | zero =>
    intro rest c p hcp
    simp [Nat.max_eq_left hcp]
  | succ k ih =>
    intro rest c p hcp
    rw [List.replicate_succ, List.cons_append, peakGo,
      ih rest (c + 1) (max p (c + 1)) (le_max_right _ _)]
    congr 1
    · omega
    · omega

theorem peakOutstanding_parentEvents (n : ℕ) : peakOutstanding (parentEvents n) = n := by
  rw [peakOutstanding, parentEvents, peakGo_replicate_spawn n _ 0 0 (le_refl 0),
    peakGo_replicate_waitChild]
  omega

/-! The two variants implement the same functions. -/

namespace Human

theorem replaceColumn_eq_AI {n : ℕ} (M : Mat n) (v : Fin n → ℚ) (c : Fin n) :
    replaceColumn M v c = AI.replaceColumn M v c := rfl

theorem elimBelow_eq_AI {n : ℕ} (M : Mat n) (i : Fin n) :
    elimBelow M i = AI.elimBelow M i := rfl

theorem calcDetGo_eq_AI {n : ℕ} (fuel : ℕ) :
    ∀ (M : Mat n) (i : ℕ), calcDetGo fuel M i = AI.calcDetGo fuel M i := by
  induction fuel with
  | zero =>
    intro M i
    rfl
  | succ fuel ih =>
    intro M i
    rw [calcDetGo, AI.calcDetGo]
    by_cases hin : i < n
    · rw [dif_pos hin, dif_pos hin]
      by_cases hp : |M ⟨i, hin⟩ ⟨i, hin⟩| < thr
      · rw [if_pos hp, if_pos hp]
      · rw [if_neg hp, if_neg hp]
        simp only [elimBelow_eq_AI, ih]
    · rw [dif_neg hin, dif_neg hin]

theorem calcDet_eq_AI {n : ℕ} (M : Mat n) : calcDet M = AI.calcDet M := by
  rw [calcDet, AI.calcDet, calcDetGo_eq_AI]

theorem elimState_eq_AI {n : ℕ} (M : Mat n) : elimState M = AI.elimState M := by
  rw [elimState, AI.elimState, calcDetGo_eq_AI]

theorem seqLoop_eq_AI {n : ℕ} (A : Mat n) (B : Fin n → ℚ) (d : ℚ) (l : List (Fin n)) :
    ∀ X : Fin n → ℚ, seqLoop A B d l X = AI.seqLoop A B d l X := by
  induction l with
  | nil =>
    intro X
    rfl
  | cons i rest ih =>
    intro X
    rw [seqLoop, AI.seqLoop, calcDet_eq_AI, replaceColumn_eq_AI, ih]

theorem linearSolveSeq_eq_AI {n : ℕ} (A : Mat n) (B X : Fin n → ℚ) :
    linearSolveSeq A B X = AI.linearSolveSeq A B X := by
  rw [linearSolveSeq, AI.linearSolveSeq]
  simp only [calcDet_eq_AI, seqLoop_eq_AI]

theorem linearSolvePar_eq_AI {n : ℕ} (A : Mat n) (B X : Fin n → ℚ) :
    linearSolvePar A B X = AI.linearSolvePar A B X := by
  rw [linearSolvePar, AI.linearSolvePar]
  simp only [calcDet_eq_AI]

end Human

namespace AI

theorem linearSolvePar_eq_init {n : ℕ} (A : Mat n) (B X : Fin n → ℚ) :
    linearSolvePar A B X = X := by
  simp only [linearSolvePar, ite_self]

end AI

/-! Claim theorems.

Each theorem below settles one claim of the specification against the
embedded code. -/

/-- Claim C1 (refuted on the code, as the specification itself records in section 4.3):
at the concrete system `A = [[2]]`, `B = [4]`, with `X` initially `[0]` and
any worker bound, the sequential solver computes `X[0] = 2` and a forked
worker privately computes `2`, but the write of `X[0]` happens in the child-side
copy-on-write address space, so the parent-visible result of `linearSolvePar`
is still `0` and the two solvers disagree. -/
theorem C1_parallel_result_never_delivered :
    AI.linearSolveSeq (Matrix.of ![![(2 : ℚ)]]) ![4] ![0] 0 = 2
    ∧ AI.linearSolvePar (Matrix.of ![![(2 : ℚ)]]) ![4] ![0] 0 = 0
    ∧ AI.workerX (Matrix.of ![![(2 : ℚ)]]) ![4] (AI.calcDet (Matrix.of ![![(2 : ℚ)]])) 0 = 2
    ∧ AI.linearSolvePar (Matrix.of ![![(2 : ℚ)]]) ![4] ![0]
        ≠ AI.linearSolveSeq (Matrix.of ![![(2 : ℚ)]]) ![4] ![0] := by
  have hdet : AI.calcDet (Matrix.of ![![(2 : ℚ)]]) = 2 := by
    norm_num [AI.calcDet, AI.calcDetGo, AI.elimBelow, thr, abs_lt]
  have hnum : AI.calcDet (AI.replaceColumn (Matrix.of ![![(2 : ℚ)]]) ![4] 0) = 4 := by
    norm_num [AI.calcDet, AI.calcDetGo, AI.elimBelow, AI.replaceColumn, thr, abs_lt]
  have hne : AI.calcDet (Matrix.of ![![(2 : ℚ)]]) ≠ 0 := by
    rw [hdet]
    norm_num
  have hseq : AI.linearSolveSeq (Matrix.of ![![(2 : ℚ)]]) ![4] ![0] 0 = 2 := by
    rw [AI.linearSolveSeq_of_ne_zero _ _ _ hne 0, hnum, hdet]
    norm_num
  have hpar : AI.linearSolvePar (Matrix.of ![![(2 : ℚ)]]) ![4] ![0] 0 = 0 := by
    rw [AI.linearSolvePar_eq_init]
    simp
  refine ⟨hseq, hpar, ?_, ?_⟩
  · rw [AI.workerX, hnum, hdet]
    norm_num
  · intro hcontra
    have happ := congrFun hcontra 0
    rw [hpar, hseq] at happ
    norm_num at happ

/-- Claim C2: when the main determinant of the engine is nonzero, the sequential
solver sets every `X[i]` to `calcDet(A with column i overwritten by B) / detA`. -/
theorem C2_seq_solver_cramer_formula {n : ℕ} (A : Mat n) (B X : Fin n → ℚ)
    (h : AI.calcDet A ≠ 0) (i : Fin n) :
    AI.linearSolveSeq A B X i = AI.calcDet (AI.replaceColumn A B i) / AI.calcDet A :=
  AI.linearSolveSeq_of_ne_zero A B X h i

/-- Witness for C2 at `A = [[2]]`, `B = [4]`. -/
theorem C2_seq_solver_cramer_formula_witness :
    AI.calcDet (Matrix.of ![![(2 : ℚ)]]) ≠ 0
    ∧ AI.linearSolveSeq (Matrix.of ![![(2 : ℚ)]]) ![4] ![0] 0
        = AI.calcDet (AI.replaceColumn (Matrix.of ![![(2 : ℚ)]]) ![4] 0)
          / AI.calcDet (Matrix.of ![![(2 : ℚ)]]) := by
  have hne : AI.calcDet (Matrix.of ![![(2 : ℚ)]]) ≠ 0 := by
    norm_num [AI.calcDet, AI.calcDetGo, AI.elimBelow, thr, abs_lt]
  exact ⟨hne, C2_seq_solver_cramer_formula _ _ ![0] hne 0⟩

/-- Claim C3: if no pivot falls below the threshold in any of the `n + 1`
eliminations (so in particular the `detA` of the engine is nonzero), then the
computed solution satisfies `A · X = B` exactly, under the exact rational
arithmetic of the embedding. -/
theorem C3_seq_solver_roundTrip {n : ℕ} (A : Mat n) (B X : Fin n → ℚ)
    (hA : AI.pivotsOK A = true)
    (hcols : ∀ i, AI.pivotsOK (AI.replaceColumn A B i) = true) :
    A.mulVec (AI.linearSolveSeq A B X) = B :=
  AI.mulVec_linearSolveSeq A B X hA hcols

/-- Witness for C3 at `A = [[2]]`, `B = [4]`. -/
theorem C3_seq_solver_roundTrip_witness :
    AI.pivotsOK (Matrix.of ![![(2 : ℚ)]]) = true
    ∧ (∀ i, AI.pivotsOK (AI.replaceColumn (Matrix.of ![![(2 : ℚ)]]) ![4] i) = true)
    ∧ (Matrix.of ![![(2 : ℚ)]]).mulVec
        (AI.linearSolveSeq (Matrix.of ![![(2 : ℚ)]]) ![4] ![0]) = ![4] := by
  have hA : AI.pivotsOK (Matrix.of ![![(2 : ℚ)]]) = true := by
    norm_num [AI.pivotsOK, AI.pivotsOKgo, AI.elimBelow, thr, abs_lt]
  have hcols : ∀ i, AI.pivotsOK (AI.replaceColumn (Matrix.of ![![(2 : ℚ)]]) ![4] i) = true := by
    intro i
    fin_cases i
    norm_num [AI.pivotsOK, AI.pivotsOKgo, AI.elimBelow, AI.replaceColumn, thr, abs_lt]
  exact ⟨hA, hcols, C3_seq_solver_roundTrip _ _ ![0] hA hcols⟩

/-- Claim C4: `calcDet` returns `0` exactly when some pivot examined during the
run is below the `1e-9` threshold (the early return), and otherwise returns
the product of the diagonal entries of the eliminated matrix it leaves behind. -/
theorem C4_calcDet_pivot_characterisation {n : ℕ} (M : Mat n) :
    AI.calcDet M = if AI.pivotsOK M = true then ∏ j, AI.elimState M j j else 0 := by
  cases hok : AI.pivotsOK M with
  | true => rw [if_pos rfl, AI.calcDet_eq_prod_diag M hok]
  | false =>
    rw [if_neg (by simp), AI.calcDet_eq_zero_of_not_ok M hok]

/-- Claim C5: when the engine reports the main determinant as exactly `0`, the
sequential solver (either variant) returns with the solution vector `X`
exactly as it was before the call. -/
theorem C5_singular_leaves_X_unchanged {n : ℕ} (A : Mat n) (B X : Fin n → ℚ)
    (h : AI.calcDet A = 0) :
    AI.linearSolveSeq A B X = X ∧ Human.linearSolveSeq A B X = X := by
  have hAI : AI.linearSolveSeq A B X = X := by
    simp [AI.linearSolveSeq, h]
  exact ⟨hAI, by rw [Human.linearSolveSeq_eq_AI, hAI]⟩

/-- Witness for C5 at the singular system `A = [[0]]`. -/
theorem C5_singular_leaves_X_unchanged_witness :
    AI.calcDet (Matrix.of ![![(0 : ℚ)]]) = 0
    ∧ AI.linearSolveSeq (Matrix.of ![![(0 : ℚ)]]) ![4] ![7] = ![7]
    ∧ Human.linearSolveSeq (Matrix.of ![![(0 : ℚ)]]) ![4] ![7] = ![7] := by
  have h : AI.calcDet (Matrix.of ![![(0 : ℚ)]]) = 0 := by
    norm_num [AI.calcDet, AI.calcDetGo, thr, abs_lt]
  obtain ⟨h1, h2⟩ := C5_singular_leaves_X_unchanged (Matrix.of ![![(0 : ℚ)]]) ![4] ![7] h
  exact ⟨h, h1, h2⟩

/-- Claim C6 (refuted on the code): for `n = 0` neither solver rejects the
input; `calcDet` on the (unique) `0 × 0` matrix returns `1` — the empty
product of pivots — so the singular check passes and the solver returns
normally with the empty solution vector, exactly the silent behaviour the
specification forbids. -/
theorem C6_n_zero_not_rejected (M : Mat 0) (B X : Fin 0 → ℚ) :
    AI.calcDet M = 1 ∧ AI.calcDet M ≠ 0
    ∧ AI.linearSolveSeq M B X = X ∧ Human.calcDet M = 1 := by
  have h1 : AI.calcDet M = 1 := rfl
  refine ⟨h1, by rw [h1]; norm_num, ?_, by rw [Human.calcDet_eq_AI, h1]⟩
  rw [AI.linearSolveSeq]
  simp [h1, List.finRange_zero, AI.seqLoop]

/-- Claim C7 (refuted on the code): the parent of `linearSolvePar` forks one
child per variable with no wait inside the loop, so the peak number of
outstanding children is exactly `n` for every `n` — no bound is respected.
In particular for `n = 9` the peak exceeds the declared (but
never used) Human-variant bound `LIMIT_PROC = 8`. -/
theorem C7_spawning_unbounded (n : ℕ) :
    peakOutstanding (parentEvents n) = n
    ∧ Human.LIMIT_PROC = 8
    ∧ Human.LIMIT_PROC < peakOutstanding (parentEvents 9) := by
  refine ⟨peakOutstanding_parentEvents n, rfl, ?_⟩
  rw [peakOutstanding_parentEvents]
  norm_num [Human.LIMIT_PROC]

/-- Claim C8: `calcDet` returns `0` on every matrix with a zero row or two
identical rows, and returns `1` on the identity matrix of every size. -/
theorem C8_calcDet_singular_rows_and_identity {n : ℕ} (M : Mat n) :
    ((∃ r, ∀ k, M r k = 0) ∨ (∃ r s, r ≠ s ∧ ∀ k, M r k = M s k) →
      AI.calcDet M = 0)
    ∧ AI.calcDet (1 : Mat n) = 1 := by
  constructor
  · intro hsing
    apply AI.calcDet_eq_zero_of_det_eq_zero
    rcases hsing with ⟨r, hr⟩ | ⟨r, s, hrs, hrow⟩
    · exact Matrix.det_eq_zero_of_row_eq_zero r hr
    · exact Matrix.det_zero_of_row_eq hrs (funext hrow)
  · exact AI.calcDet_one

/-- Witness for C8 at the `1 × 1` zero-row matrix `[[0]]`. -/
theorem C8_calcDet_singular_rows_and_identity_witness :
    (∃ r : Fin 1, ∀ k, (Matrix.of ![![(0 : ℚ)]]) r k = 0)
    ∧ AI.calcDet (Matrix.of ![![(0 : ℚ)]]) = 0
    ∧ AI.calcDet (1 : Mat 1) = 1 := by
  have hzr : ∃ r : Fin 1, ∀ k, (Matrix.of ![![(0 : ℚ)]]) r k = 0 :=
    ⟨0, fun k => by fin_cases k; rfl⟩
  exact ⟨hzr,
    (C8_calcDet_singular_rows_and_identity (Matrix.of ![![(0 : ℚ)]])).1 (Or.inl hzr),
    (C8_calcDet_singular_rows_and_identity (Matrix.of ![![(0 : ℚ)]])).2⟩

/-- Claim C9: neither solver writes into the coefficient buffer `A` of the caller
(every elimination runs on a freshly allocated clone), and `calcDet` writes
to no buffer other than the one passed to it.  The constants vector `B` is
only ever read (it is threaded as a pure value in the embedding). -/
theorem C9_solvers_preserve_caller_buffers {n : ℕ} (h : AI.Heap n) (pA : ℕ)
    (B X : Fin n → ℚ) (hpA : pA < h.length) :
    AI.readGrid (AI.linearSolveSeqH h pA B X).1 pA = AI.readGrid h pA
    ∧ AI.readGrid (AI.linearSolveParH h pA B X).1 pA = AI.readGrid h pA
    ∧ ∀ p q : ℕ, q ≠ p → AI.readGrid (AI.calcDetH h p).1 q = AI.readGrid h q :=
  ⟨AI.linearSolveSeqH_frame h pA B X hpA, AI.linearSolveParH_frame h pA B X hpA,
   fun p q hq => AI.calcDetH_frame h p q hq⟩

/-- Witness for C9 on a one-buffer heap holding `[[2]]`. -/
theorem C9_solvers_preserve_caller_buffers_witness :
    0 < ([Matrix.of ![![(2 : ℚ)]]] : AI.Heap 1).length
    ∧ (AI.readGrid (AI.linearSolveSeqH [Matrix.of ![![(2 : ℚ)]]] 0 ![4] ![0]).1 0
        = AI.readGrid [Matrix.of ![![(2 : ℚ)]]] 0
      ∧ AI.readGrid (AI.linearSolveParH [Matrix.of ![![(2 : ℚ)]]] 0 ![4] ![0]).1 0
        = AI.readGrid [Matrix.of ![![(2 : ℚ)]]] 0
      ∧ ∀ p q : ℕ, q ≠ p →
          AI.readGrid (AI.calcDetH [Matrix.of ![![(2 : ℚ)]]] p).1 q
            = AI.readGrid [Matrix.of ![![(2 : ℚ)]]] q) :=
  ⟨by norm_num, C9_solvers_preserve_caller_buffers _ 0 ![4] ![0] (by norm_num)⟩

/-- Claim C10: the two repository variants implement extensionally equal core
logic: same determinant value, same final buffer state, same sequential
solution vector, and same parent-visible parallel behaviour. -/
theorem C10_variants_extensionally_equal {n : ℕ} (M A : Mat n) (B X : Fin n → ℚ) :
    Human.calcDet M = AI.calcDet M
    ∧ Human.elimState M = AI.elimState M
    ∧ Human.linearSolveSeq A B X = AI.linearSolveSeq A B X
    ∧ Human.linearSolvePar A B X = AI.linearSolvePar A B X :=
  ⟨Human.calcDet_eq_AI M, Human.elimState_eq_AI M, Human.linearSolveSeq_eq_AI A B X,
   Human.linearSolvePar_eq_AI A B X⟩
